import Mathlib

/-!
# Verification of the facial-detection fusion/temporal/control core

Shallow embedding, in Lean 4, of the algorithmic core of the
`facial-detection-v2` repository: the detection merger
(`src/core/face_detector.py`), the ensemble voter
(`src/models/ensemble.py`), the temporal window and pattern analyzer
(`src/detection/microexpression.py`, `src/detection/deception.py`), the
overlay's label smoothing (`src/ui/overlay.py`) and the adaptive rate
controller (`src/utils/performance.py`).  Machine floats are embedded as
rationals, Python `int()` as truncation toward zero, Python's stable
`list.sort` as insertion sort, and insertion-ordered `dict`s as
association lists.
-/

namespace FacialDetection

/-! ## Data model (`src/data/models.py`) -/

/-- `FaceRegion` from `src/data/models.py`: a detected face rectangle. -/
structure FaceRegion where
  x : Int
  y : Int
  width : Int
  height : Int
  confidence : ℚ
deriving DecidableEq, Repr

/-- `EmotionPrediction` from `src/data/models.py`.  `all_scores` is an
insertion-ordered mapping label → score, embedded as an association list. -/
structure EmotionPrediction where
  model_name : String
  emotion : String
  confidence : ℚ
  all_scores : List (String × ℚ)
deriving DecidableEq, Repr

/-- Area of a face rectangle, `width * height`. -/
def FaceRegion.area (f : FaceRegion) : Int := f.width * f.height

/-! ## Detection merger (`src/core/face_detector.py`) -/

/-- `FaceDetector._calculate_iou`: intersection over union of two face
rectangles, 0 when the union is empty. -/
def calculate_iou (f1 f2 : FaceRegion) : ℚ :=
  let x1 := max f1.x f2.x
  let y1 := max f1.y f2.y
  let x2 := min (f1.x + f1.width) (f2.x + f2.width)
  let y2 := min (f1.y + f1.height) (f2.y + f2.height)
  let intersection : Int := max 0 (x2 - x1) * max 0 (y2 - y1)
  let area1 := f1.width * f1.height
  let area2 := f2.width * f2.height
  let union := area1 + area2 - intersection
  if union = 0 then 0 else (intersection : ℚ) / (union : ℚ)

/-- Descending-by-confidence comparison used by
`all_faces.sort(key=lambda f: f.confidence, reverse=True)`. -/
def confDescLe (a b : FaceRegion) : Prop := b.confidence ≤ a.confidence

instance : DecidableRel confDescLe := fun a b => inferInstanceAs (Decidable (_ ≤ _))

/-- Python's `list.sort(key=..., reverse=True)` is a stable descending
sort; insertion sort with `confDescLe` has the same observable behavior. -/
def sortConfDesc (l : List FaceRegion) : List FaceRegion :=
  l.insertionSort confDescLe

/-- The greedy suppression loop of `FaceDetector._merge_detections`:
walk the sorted pool, keeping a face unless its IoU with an already-kept
face exceeds the threshold. -/
def mergeKeep (thr : ℚ) (kept : List FaceRegion) : List FaceRegion → List FaceRegion
  | [] => []
  | f :: fs =>
    if kept.any (fun k => thr < calculate_iou f k) then
      mergeKeep thr kept fs
    else
      f :: mergeKeep thr (kept ++ [f]) fs

/-- `FaceDetector._merge_detections`: pool the two backends' rectangles,
stable-sort descending by confidence, then greedy IoU suppression.
Default threshold 0.5. -/
def merge_detections (faces1 faces2 : List FaceRegion) (iou_threshold : ℚ := 1/2) :
    List FaceRegion :=
  mergeKeep iou_threshold [] (sortConfDesc (faces1 ++ faces2))

/-! ## Single-backend path (`FaceDetector._detect_opencv`, `_nms_faces`) -/

/-- Raw cascade rectangle `(x, y, w, h)`. -/
abbrev RawRect := Int × Int × Int × Int

/-- The post-processing of `FaceDetector._detect_opencv` on the raw
cascade output: keep a rectangle only when its aspect ratio `w/h` lies in
`[0.85, 1.2]`, and tag it with the fixed confidence 0.9.  No
non-maximum suppression is applied on this path. -/
def detect_opencv_post (raw : List RawRect) : List FaceRegion :=
  raw.filterMap (fun r =>
    let ar : ℚ := if 0 < r.2.2.2 then (r.2.2.1 : ℚ) / (r.2.2.2 : ℚ) else 0
    if 17/20 ≤ ar ∧ ar ≤ 6/5 then
      some ⟨r.1, r.2.1, r.2.2.1, r.2.2.2, 9/10⟩
    else none)

/-- Inline IoU of `FaceDetector._nms_faces` on raw tuples. -/
def iou_raw (a b : RawRect) : ℚ :=
  let xi1 := max a.1 b.1
  let yi1 := max a.2.1 b.2.1
  let xi2 := min (a.1 + a.2.2.1) (b.1 + b.2.2.1)
  let yi2 := min (a.2.1 + a.2.2.2) (b.2.1 + b.2.2.2)
  let inter : Int := max 0 (xi2 - xi1) * max 0 (yi2 - yi1)
  let union : Int := a.2.2.1 * a.2.2.2 + b.2.2.1 * b.2.2.2 - inter
  if 0 < union then (inter : ℚ) / (union : ℚ) else 0

/-- Descending-by-area comparison used by `_nms_faces`'s
`sorted(faces, key=lambda f: f[2] * f[3], reverse=True)`. -/
def areaDescLe (a b : RawRect) : Prop := b.2.2.1 * b.2.2.2 ≤ a.2.2.1 * a.2.2.2

instance : DecidableRel areaDescLe := fun a b => inferInstanceAs (Decidable (_ ≤ _))

/-- Greedy keep loop of `_nms_faces`. -/
def nmsKeep (thr : ℚ) (kept : List RawRect) : List RawRect → List RawRect
  | [] => []
  | f :: fs =>
    if kept.any (fun k => thr < iou_raw f k) then
      nmsKeep thr kept fs
    else
      f :: nmsKeep thr (kept ++ [f]) fs

/-- `FaceDetector._nms_faces`: sort raw rectangles descending by area,
then greedily suppress at IoU threshold 0.3.  This helper is defined in
the source but is never invoked on any detection path. -/
def nms_faces (faces : List RawRect) (overlap_threshold : ℚ := 3/10) : List RawRect :=
  nmsKeep overlap_threshold [] (faces.insertionSort areaDescLe)

/-! ## Ensemble voter (`src/models/ensemble.py`) -/

/-- `EnsembleVoter` configuration: voting method string and the minimum
number of model predictions required. -/
structure EnsembleVoter where
  method : String
  min_models_required : Nat
deriving DecidableEq, Repr

/-- `EnsembleVoter.__init__`: stores the method string without any
validation, so construction never fails. -/
def EnsembleVoter.init (method : String) (min_models_required : Nat) :
    Except String EnsembleVoter :=
  .ok ⟨method, min_models_required⟩

/-- One `emotion_scores[emotion] += v` step on an insertion-ordered
`defaultdict`: update the existing entry in place, or append a fresh key
at the end. -/
def upsert (k : String) (v : ℚ) : List (String × ℚ) → List (String × ℚ)
  | [] => [(k, v)]
  | (k', v') :: rest =>
    if k' = k then (k', v' + v) :: rest else (k', v') :: upsert k v rest

/-- Python's `max(items, key=...)`: the first element attaining the
maximal key (a later element replaces the best only when strictly
greater). -/
def firstMaxBy {α β : Type} [LinearOrder β] (val : α → β) : List α → Option α
  | [] => none
  | x :: xs => some (xs.foldl (fun best y => if val best < val y then y else best) x)

/-- Model weight lookup with default 1.0, as in `_weighted_voting`. -/
def modelWeight (weights : Option (List (String × ℚ))) (name : String) : ℚ :=
  match weights with
  | none => 1
  | some ws =>
    match ws.find? (fun p => p.1 = name) with
    | some p => p.2
    | none => 1

/-- Score accumulation loop of `_weighted_voting`: add
`score * effective_weight` for every `(emotion, score)` of every
prediction, in order. -/
def accumWeighted (weights : Option (List (String × ℚ)))
    (preds : List EmotionPrediction) : List (String × ℚ) :=
  preds.foldl
    (fun acc p =>
      let w := modelWeight weights p.model_name * p.confidence
      p.all_scores.foldl (fun a kv => upsert kv.1 (kv.2 * w) a) acc)
    []

/-- Total effective weight accumulated by `_weighted_voting`. -/
def totalWeight (weights : Option (List (String × ℚ)))
    (preds : List EmotionPrediction) : ℚ :=
  preds.foldl (fun t p => t + modelWeight weights p.model_name * p.confidence) 0

/-- The normalized score dictionary computed by `_weighted_voting`:
normalize by the total effective weight when it is positive. -/
def weightedScores (weights : Option (List (String × ℚ)))
    (preds : List EmotionPrediction) : List (String × ℚ) :=
  if 0 < totalWeight weights preds then
    (accumWeighted weights preds).map
      (fun kv => (kv.1, kv.2 / totalWeight weights preds))
  else accumWeighted weights preds

/-- `EnsembleVoter._weighted_voting`. -/
def weighted_voting (preds : List EmotionPrediction)
    (weights : Option (List (String × ℚ))) : Option EmotionPrediction :=
  match firstMaxBy Prod.snd (weightedScores weights preds) with
  | none => none
  | some d => some ⟨"Ensemble", d.1, d.2, weightedScores weights preds⟩

/-- Score accumulation loop of `_average_voting`. -/
def accumAverage (preds : List EmotionPrediction) : List (String × ℚ) :=
  preds.foldl
    (fun acc p => p.all_scores.foldl (fun a kv => upsert kv.1 kv.2 a) acc)
    []

/-- The averaged score dictionary of `_average_voting`.  Dividing by
`len(predictions)` is only reached from `vote` with a nonempty list; on
the empty list Python would raise on `max` of an empty dict, embedded in
`average_voting` as `none`. -/
def averageScores (preds : List EmotionPrediction) : List (String × ℚ) :=
  (accumAverage preds).map (fun kv => (kv.1, kv.2 / (preds.length : ℚ)))

/-- `EnsembleVoter._average_voting` continued: pick the dominant emotion
of the averaged scores. -/
def average_voting (preds : List EmotionPrediction) : Option EmotionPrediction :=
  match firstMaxBy Prod.snd (averageScores preds) with
  | none => none
  | some d => some ⟨"Ensemble", d.1, d.2, averageScores preds⟩

/-- `EnsembleVoter._max_confidence`: pass through the first prediction of
maximal confidence. -/
def max_confidence (preds : List EmotionPrediction) : Option EmotionPrediction :=
  match firstMaxBy EmotionPrediction.confidence preds with
  | none => none
  | some p => some ⟨"Ensemble", p.emotion, p.confidence, p.all_scores⟩

/-- `EnsembleVoter.vote`: below `min_models_required` return `None`;
otherwise dispatch on the method string, raising `ValueError` (embedded
as `Except.error`) for an unknown method. -/
def vote (v : EnsembleVoter) (preds : List EmotionPrediction)
    (weights : Option (List (String × ℚ))) :
    Except String (Option EmotionPrediction) :=
  if preds.length < v.min_models_required then
    .ok none
  else if v.method = "weighted_voting" then
    .ok (weighted_voting preds weights)
  else if v.method = "average" then
    .ok (average_voting preds)
  else if v.method = "max_confidence" then
    .ok (max_confidence preds)
  else
    .error ("Unknown voting method: " ++ v.method)

/-- Number of predictions voting for a given emotion. -/
def votesFor (preds : List EmotionPrediction) (e : String) : Nat :=
  preds.countP (fun p => p.emotion = e)

/-- `EnsembleVoter.get_agreement_score`: 1.0 below two predictions, else
the majority vote count over the total count. -/
def get_agreement_score (preds : List EmotionPrediction) : ℚ :=
  if preds.length < 2 then 1
  else
    let maxVotes := ((preds.map (fun p => votesFor preds p.emotion)).foldl max 0 : Nat)
    (maxVotes : ℚ) / (preds.length : ℚ)

/-! ## Temporal window (`src/detection/microexpression.py`) -/

/-- The fields of a `FaceAnalysis` consumed by the temporal window:
consensus emotion, confidence, and a timestamp in milliseconds. -/
structure AnalysisEntry where
  emotion : String
  confidence : ℚ
  timestamp : ℚ
deriving DecidableEq, Repr

/-- The `while history and history[0].timestamp < cutoff_time:
history.popleft()` loop: drop the prefix of entries strictly older than
the cutoff. -/
def evictOld (cutoff : ℚ) : List AnalysisEntry → List AnalysisEntry
  | [] => []
  | e :: es => if e.timestamp < cutoff then evictOld cutoff es else e :: es

/-- `MicroexpressionDetector.add_analysis` restricted to one face's
history: append the new entry, then evict entries older than
`analysis.timestamp - window_duration`. -/
def add_analysis (window_ms : ℚ) (history : List AnalysisEntry)
    (a : AnalysisEntry) : List AnalysisEntry :=
  evictOld (a.timestamp - window_ms) (history ++ [a])

/-- `MicroexpressionDetector.get_emotion_pattern`: the chronological
label sequence of one face's history. -/
def get_emotion_pattern (history : List AnalysisEntry) : List String :=
  history.map AnalysisEntry.emotion

/-! ## Deception pattern signal (`src/detection/deception.py`) -/

/-- Python `set(a) == set(b)` on label lists. -/
def listSetEq (a b : List String) : Bool :=
  a.all (fun x => b.contains x) && b.all (fun x => a.contains x)

/-- The last two labels `[pattern[-2], pattern[-1]]` of a window pattern. -/
def lastTwo (pattern : List String) : List String :=
  pattern.drop (pattern.length - 2)

/-- The `for suspicious in self.suspicious_patterns` loop of
`DeceptionDetector._check_emotion_patterns`: return 0.7 at the first
configured length-2 pattern equal, as a set, to the last two labels of
the window pattern; 0 when the loop falls through. -/
def patternLoop (pattern : List String) : List (List String) → ℚ
  | [] => 0
  | s :: rest =>
    if s.length = 2 ∧ 2 ≤ pattern.length ∧ listSetEq (lastTwo pattern) s then
      7/10
    else patternLoop pattern rest

/-- `DeceptionDetector._check_emotion_patterns`, score component: 0 when
the pattern has fewer than two labels; otherwise the result of the loop
over the configured suspicious patterns. -/
def check_emotion_patterns (pattern : List String)
    (suspicious_patterns : List (List String)) : ℚ :=
  if pattern.length < 2 then 0
  else patternLoop pattern suspicious_patterns

/-- Modelled from the spec: "the last two distinct labels in the pattern
(as an unordered pair)" — collapse consecutive duplicate labels, then
take the last two of the collapsed sequence.  Used only to state what
the claim asserts, for comparison with `check_emotion_patterns`. -/
def specLastTwoDistinct (pattern : List String) : List String :=
  let collapsed := pattern.foldl
    (fun acc l => if acc.getLast? = some l then acc else acc ++ [l]) []
  collapsed.drop (collapsed.length - 2)

/-! ## Overlay label smoothing (`src/ui/overlay.py`) -/

/-- `collections.Counter` key order: keys in order of first occurrence. -/
def dedupFirstAux (seen : List String) : List String → List String
  | [] => []
  | x :: xs =>
    if x ∈ seen then dedupFirstAux seen xs
    else x :: dedupFirstAux (x :: seen) xs

/-- Keys of `Counter(history)` in insertion order. -/
def dedupFirst (l : List String) : List String := dedupFirstAux [] l

/-- The `(key, count)` items of `Counter(history)` in insertion order. -/
def labelCounts (l : List String) : List (String × Nat) :=
  (dedupFirst l).map (fun k => (k, l.count k))

/-- The smoothed label applied in `TransparentOverlay.update_analysis`:
`Counter(track['emotion_history']).most_common(1)[0][0]`; `most_common`
returns the first item attaining the maximal count, ties resolved in
favor of the earliest-inserted key. -/
def smoothed_emotion (history : List String) : Option String :=
  (firstMaxBy Prod.snd (labelCounts history)).map Prod.fst

/-! ## Adaptive rate controller (`src/utils/performance.py`) -/

/-- The `PerformanceMonitor` state touched by `adapt_frame_rate`. -/
structure PerformanceMonitor where
  min_fps : Int
  max_fps : Int
  target_cpu_percent : ℚ
  current_fps : Int
  frame_times : List ℚ
deriving DecidableEq, Repr

/-- `PerformanceMonitor.record_frame_time`: append, evicting the oldest
sample beyond capacity 30. -/
def record_frame_time (m : PerformanceMonitor) (t : ℚ) : PerformanceMonitor :=
  let ft := m.frame_times ++ [t]
  { m with frame_times := if 30 < ft.length then ft.drop 1 else ft }

/-- Python `int()` on a rational: truncation toward zero. -/
def truncQ (q : ℚ) : Int := if 0 ≤ q then ⌊q⌋ else ⌈q⌉

/-- The `avg_time` of `adapt_frame_rate`: mean of the recorded frame
times. -/
def avgTime (m : PerformanceMonitor) : ℚ :=
  m.frame_times.sum / (m.frame_times.length : ℚ)

/-- The `theoretical_fps` of `adapt_frame_rate`: `1 / avg_time` when the
average is positive, else `max_fps`. -/
def theoreticalFps (m : PerformanceMonitor) : ℚ :=
  if 0 < avgTime m then 1 / avgTime m else (m.max_fps : ℚ)

/-- `PerformanceMonitor.adapt_frame_rate` as a pure function of the
state and the externally read CPU percentage: returns the new
`current_fps`. -/
def adapt_frame_rate (m : PerformanceMonitor) (cpu : ℚ) : Int :=
  if m.frame_times = [] then m.current_fps
  else
    min
      (if m.target_cpu_percent < cpu then
        max m.min_fps (m.current_fps - 1)
      else if cpu < m.target_cpu_percent * (7/10) ∧
          (m.current_fps : ℚ) < theoreticalFps m then
        min m.max_fps (m.current_fps + 1)
      else
        m.current_fps)
      (truncQ (theoreticalFps m * (9/10)))

/-! ## Helper lemmas -/

/-- The fold inside `firstMaxBy` returns either its seed (then nothing
beats the seed) or an element of the list splitting it into a strictly
smaller prefix and a no-larger suffix. -/
theorem foldMax_spec {α β : Type} [LinearOrder β] (val : α → β) :
    ∀ (l : List α) (b r : α),
      l.foldl (fun best y => if val best < val y then y else best) b = r →
      (r = b ∧ ∀ y ∈ l, val y ≤ val b) ∨
      (∃ l1 l2, l = l1 ++ r :: l2 ∧ val b < val r ∧
        (∀ y ∈ l1, val y < val r) ∧ (∀ y ∈ l2, val y ≤ val r)) := by
  intro l
  induction l with
  | nil =>
    intro b r h
    exact Or.inl ⟨h.symm, by simp⟩
  | cons y ys ih =>
    intro b r h
    simp only [List.foldl_cons] at h
    by_cases hy : val b < val y
    · rw [if_pos hy] at h
      rcases ih y r h with ⟨req, hle⟩ | ⟨l1, l2, heq, hlt, h1, h2⟩
      · refine Or.inr ⟨[], ys, ?_, ?_, by simp, ?_⟩
        · simp [req]
        · rw [req]; exact hy
        · intro z hz; rw [req]; exact hle z hz
      · refine Or.inr ⟨y :: l1, l2, by rw [heq]; rfl, lt_trans hy hlt, ?_, h2⟩
        intro z hz
        rcases List.mem_cons.mp hz with hz | hz
        · rw [hz]; exact hlt
        · exact h1 z hz
    · rw [if_neg hy] at h
      rcases ih b r h with ⟨req, hle⟩ | ⟨l1, l2, heq, hbl, h1, h2⟩
      · refine Or.inl ⟨req, ?_⟩
        intro z hz
        rcases List.mem_cons.mp hz with hz | hz
        · rw [hz]; exact le_of_not_lt hy
        · exact hle z hz
      · refine Or.inr ⟨y :: l1, l2, by rw [heq]; rfl, hbl, ?_, h2⟩
        intro z hz
        rcases List.mem_cons.mp hz with hz | hz
        · rw [hz]; exact lt_of_le_of_lt (le_of_not_lt hy) hbl
        · exact h1 z hz

/-- `firstMaxBy` returns the first element attaining the maximal key:
everything before it is strictly smaller, everything after it no larger. -/
theorem firstMaxBy_split {α β : Type} [LinearOrder β] (val : α → β)
    (l : List α) (x : α) (h : firstMaxBy val l = some x) :
    ∃ l1 l2, l = l1 ++ x :: l2 ∧
      (∀ y ∈ l1, val y < val x) ∧ (∀ y ∈ l2, val y ≤ val x) := by
  cases l with
  | nil => simp [firstMaxBy] at h
  | cons a as =>
    simp only [firstMaxBy, Option.some.injEq] at h
    rcases foldMax_spec val as a x h with ⟨req, hle⟩ | ⟨l1, l2, heq, hal, h1, h2⟩
    · refine ⟨[], as, by simp [req], by simp, ?_⟩
      intro z hz; rw [req]; exact hle z hz
    · refine ⟨a :: l1, l2, by rw [heq]; rfl, ?_, h2⟩
      intro z hz
      rcases List.mem_cons.mp hz with hz | hz
      · rw [hz]; exact hal
      · exact h1 z hz

/-- The greedy merge loop keeps a sublist of its input, in order. -/
theorem mergeKeep_sublist (thr : ℚ) :
    ∀ (l kept : List FaceRegion), List.Sublist (mergeKeep thr kept l) l := by
  intro l
  induction l with
  | nil => intro kept; simp [mergeKeep]
  | cons f fs ih =>
    intro kept
    simp only [mergeKeep]
    split
    · exact (ih kept).trans (List.sublist_cons_self f fs)
    · exact (ih (kept ++ [f])).cons₂ f

instance : IsTotal FaceRegion confDescLe :=
  ⟨fun a b => le_total b.confidence a.confidence⟩

instance : IsTrans FaceRegion confDescLe :=
  ⟨fun _ _ _ h1 h2 => le_trans h2 h1⟩

/-- The stable sort of the merger produces a list sorted descending by
confidence. -/
theorem sortConfDesc_sorted (l : List FaceRegion) :
    (sortConfDesc l).Pairwise confDescLe :=
  List.sorted_insertionSort confDescLe l

/-- The eviction loop of the temporal window removes a prefix: what
remains is a suffix of the input. -/
theorem evictOld_suffix (c : ℚ) : ∀ l : List AnalysisEntry, evictOld c l <:+ l := by
  intro l
  induction l with
  | nil => simp [evictOld]
  | cons e es ih =>
    simp only [evictOld]
    split
    · exact ih.trans (List.suffix_cons e es)
    · exact List.suffix_refl _

/-- On a time-ordered history, every entry surviving eviction is at
least as recent as the cutoff. -/
theorem evictOld_bound (c : ℚ) :
    ∀ l : List AnalysisEntry,
      l.Pairwise (fun e1 e2 => e1.timestamp ≤ e2.timestamp) →
      ∀ e ∈ evictOld c l, c ≤ e.timestamp := by
  intro l
  induction l with
  | nil => intro _ e he; simp [evictOld] at he
  | cons a as ih =>
    intro hp e he
    rw [List.pairwise_cons] at hp
    simp only [evictOld] at he
    split at he
    · exact ih hp.2 e he
    · rcases List.mem_cons.mp he with he | he
      · rw [he]; exact le_of_not_lt (by assumption)
      · exact le_trans (le_of_not_lt (by assumption)) (hp.1 e he)

/-- Members of `dedupFirstAux seen l` come from `l` and avoid `seen`. -/
theorem mem_dedupFirstAux :
    ∀ (l seen : List String) (y : String),
      y ∈ dedupFirstAux seen l → y ∈ l ∧ y ∉ seen := by
  intro l
  induction l with
  | nil => intro seen y hy; simp [dedupFirstAux] at hy
  | cons x xs ih =>
    intro seen y hy
    simp only [dedupFirstAux] at hy
    split at hy
    · rcases ih seen y hy with ⟨h1, h2⟩
      exact ⟨List.mem_cons_of_mem x h1, h2⟩
    · rcases List.mem_cons.mp hy with hy | hy
      · subst hy; exact ⟨List.mem_cons_self y xs, by assumption⟩
      · rcases ih (x :: seen) y hy with ⟨h1, h2⟩
        exact ⟨List.mem_cons_of_mem x h1,
          fun hc => h2 (List.mem_cons_of_mem x hc)⟩

/-- Every member of `l` not yet seen appears among the deduplicated keys. -/
theorem dedupFirstAux_complete :
    ∀ (l seen : List String) (y : String),
      y ∈ l → y ∉ seen → y ∈ dedupFirstAux seen l := by
  intro l
  induction l with
  | nil => intro seen y hy; simp at hy
  | cons x xs ih =>
    intro seen y hy hns
    simp only [dedupFirstAux]
    rcases List.mem_cons.mp hy with hy | hy
    · subst hy
      rw [if_neg hns]
      exact List.mem_cons_self y _
    · split
      · exact ih seen y hy hns
      · by_cases hyx : y = x
        · subst hyx; exact List.mem_cons_self y _
        · exact List.mem_cons_of_mem x
            (ih (x :: seen) y hy (by simp [hyx, hns]))

/-- A split of the deduplicated key list lifts to a split of the
original list at the first occurrence of the key, whose prefix contains
only seen keys or keys listed before it. -/
theorem dedupFirstAux_split :
    ∀ (l seen d1 : List String) (x : String) (d2 : List String),
      dedupFirstAux seen l = d1 ++ x :: d2 →
      ∃ l1 l2, l = l1 ++ x :: l2 ∧ x ∉ l1 ∧ ∀ y ∈ l1, y ∈ seen ∨ y ∈ d1 := by
  intro l
  induction l with
  | nil => intro seen d1 x d2 h; simp [dedupFirstAux] at h
  | cons a as ih =>
    intro seen d1 x d2 h
    simp only [dedupFirstAux] at h
    split at h
    · rcases ih seen d1 x d2 h with ⟨l1, l2, heq, hnx, hsub⟩
      have hxa : x ≠ a := by
        intro hc
        have : x ∈ dedupFirstAux seen as := by rw [h]; simp
        exact (mem_dedupFirstAux as seen x this).2 (hc ▸ (by assumption))
      refine ⟨a :: l1, l2, by rw [heq]; rfl, ?_, ?_⟩
      · intro hc
        rcases List.mem_cons.mp hc with hc | hc
        · exact hxa hc
        · exact hnx hc
      · intro y hy
        rcases List.mem_cons.mp hy with hy | hy
        · subst hy; exact Or.inl (by assumption)
        · exact hsub y hy
    · cases d1 with
      | nil =>
        simp only [List.nil_append, List.cons.injEq] at h
        exact ⟨[], as, by rw [h.1]; rfl, by simp, by simp⟩

      | cons b d1' =>
        simp only [List.cons_append, List.cons.injEq] at h
        rcases ih (a :: seen) d1' x d2 h.2 with ⟨l1, l2, heq, hnx, hsub⟩
        have hxa : x ≠ a := by
          intro hc
          have : x ∈ dedupFirstAux (a :: seen) as := by rw [h.2]; simp
          exact (mem_dedupFirstAux as (a :: seen) x this).2
            (hc ▸ List.mem_cons_self a seen)
        refine ⟨a :: l1, l2, by rw [heq]; rfl, ?_, ?_⟩
        · intro hc
          rcases List.mem_cons.mp hc with hc | hc
          · exact hxa hc
          · exact hnx hc
        · intro y hy
          rcases List.mem_cons.mp hy with hy | hy
          · subst hy
            exact Or.inr (by rw [h.1]; exact List.mem_cons_self b d1')
          · rcases hsub y hy with hs | hs
            · rcases List.mem_cons.mp hs with hs | hs
              · exact Or.inr (by rw [hs, h.1]; exact List.mem_cons_self b d1')
              · exact Or.inl hs
            · exact Or.inr (List.mem_cons_of_mem b hs)

/-- A `map` image split into `m1 ++ p :: m2` comes from a corresponding
split of the source list. -/
theorem map_split {α β : Type} (f : α → β) :
    ∀ (l : List α) (m1 : List β) (p : β) (m2 : List β),
      l.map f = m1 ++ p :: m2 →
      ∃ d1 k d2, l = d1 ++ k :: d2 ∧ f k = p ∧ d1.map f = m1 ∧ d2.map f = m2 := by
  intro l
  induction l with
  | nil => intro m1 p m2 h; simp at h
  | cons a as ih =>
    intro m1 p m2 h
    cases m1 with
    | nil =>
      simp only [List.map_cons, List.nil_append, List.cons.injEq] at h
      exact ⟨[], a, as, rfl, h.1, rfl, h.2⟩
    | cons q m1' =>
      simp only [List.map_cons, List.cons_append, List.cons.injEq] at h
      rcases ih m1' p m2 h.2 with ⟨d1, k, d2, heq, hk, hm1, hm2⟩
      exact ⟨a :: d1, k, d2, by rw [heq]; rfl, hk, by simp [hm1, h.1], hm2⟩

/-! ## Claim theorems -/

/-- C9: the merger's IoU function is symmetric, and on rectangles with
positive width and height the IoU of a rectangle with itself is 1. -/
theorem calculate_iou_symm_refl (f1 f2 : FaceRegion)
    (h1w : 0 < f1.width) (h1h : 0 < f1.height)
    (h2w : 0 < f2.width) (h2h : 0 < f2.height) :
    calculate_iou f1 f2 = calculate_iou f2 f1 ∧ calculate_iou f1 f1 = 1 := by
  constructor
  · simp only [calculate_iou]
    rw [max_comm f2.x f1.x, max_comm f2.y f1.y,
      min_comm (f2.x + f2.width) (f1.x + f1.width),
      min_comm (f2.y + f2.height) (f1.y + f1.height),
      add_comm (f2.width * f2.height) (f1.width * f1.height)]
  · simp only [calculate_iou, max_self, min_self, add_sub_cancel_left]
    rw [max_eq_right h1w.le, max_eq_right h1h.le, add_sub_cancel_right]
    have hne : f1.width * f1.height ≠ 0 := (mul_pos h1w h1h).ne'
    rw [if_neg hne]
    exact div_self (by exact_mod_cast hne)

/-- Witness for C9 at concrete rectangles. -/
theorem calculate_iou_symm_refl_witness :
    calculate_iou ⟨0, 0, 10, 10, 1⟩ ⟨3, 4, 7, 9, 1/2⟩
      = calculate_iou ⟨3, 4, 7, 9, 1/2⟩ ⟨0, 0, 10, 10, 1⟩ ∧
    calculate_iou ⟨0, 0, 10, 10, 1⟩ ⟨0, 0, 10, 10, 1⟩ = 1 :=
  calculate_iou_symm_refl ⟨0, 0, 10, 10, 1⟩ ⟨3, 4, 7, 9, 1/2⟩
    (by decide) (by decide) (by decide) (by decide)

/-- C10: with fewer than two model predictions — the empty list
included — `get_agreement_score` returns exactly 1. -/
theorem get_agreement_score_few (preds : List EmotionPrediction)
    (h : preds.length < 2) : get_agreement_score preds = 1 := by
  simp [get_agreement_score, h]

/-- Witness for C10 at the empty prediction list. -/
theorem get_agreement_score_few_witness :
    get_agreement_score [] = 1 :=
  get_agreement_score_few [] (by decide)

/-- C8: on a time-ordered history, inserting an entry evicts exactly a
prefix (the result is a suffix of the appended history) and every
surviving entry is at least as recent as the new timestamp minus the
window; inserting at t = 0, 100, 600 ms with a 500 ms window leaves the
entries at 100 and 600. -/
theorem add_analysis_prefix_trim :
    (∀ (window : ℚ) (history : List AnalysisEntry) (a : AnalysisEntry),
      (history ++ [a]).Pairwise (fun e1 e2 => e1.timestamp ≤ e2.timestamp) →
      (∀ e ∈ add_analysis window history a,
        a.timestamp - window ≤ e.timestamp) ∧
      (add_analysis window history a) <:+ (history ++ [a])) ∧
    [(⟨"neutral", 1, 0⟩ : AnalysisEntry), ⟨"happy", 1, 100⟩,
        ⟨"sad", 1, 600⟩].foldl (add_analysis 500) []
      = [⟨"happy", 1, 100⟩, ⟨"sad", 1, 600⟩] := by
  constructor
  · intro w hist a hp
    unfold add_analysis
    exact ⟨fun e he => evictOld_bound _ _ hp e he, evictOld_suffix _ _⟩
  · with_unfolding_all rfl

/-- Witness for C8's universally quantified part at a concrete
time-ordered history. -/
theorem add_analysis_prefix_trim_witness :
    (∀ e ∈ add_analysis 500 [⟨"happy", 1, 100⟩] ⟨"sad", 1, 600⟩,
      (⟨"sad", 1, 600⟩ : AnalysisEntry).timestamp - 500 ≤ e.timestamp) ∧
    add_analysis 500 [⟨"happy", 1, 100⟩] ⟨"sad", 1, 600⟩
      <:+ ([⟨"happy", 1, 100⟩] ++ [⟨"sad", 1, 600⟩]) :=
  add_analysis_prefix_trim.1 500 [⟨"happy", 1, 100⟩] ⟨"sad", 1, 600⟩
    (by with_unfolding_all decide)

/-- C5: on the single-backend OpenCV path the raw detections
`(0,0,50,50)` and `(10,0,50,50)` — IoU 2/3 > 0.3 — are both returned,
because the suppression helper `_nms_faces` is never invoked; that
helper, applied as the claim describes, would keep only one of them. -/
theorem detect_opencv_missing_nms :
    detect_opencv_post [(0, 0, 50, 50), (10, 0, 50, 50)]
      = [⟨0, 0, 50, 50, 9/10⟩, ⟨10, 0, 50, 50, 9/10⟩] ∧
    3/10 < calculate_iou ⟨0, 0, 50, 50, 9/10⟩ ⟨10, 0, 50, 50, 9/10⟩ ∧
    nms_faces [(0, 0, 50, 50), (10, 0, 50, 50)] (3/10) = [(0, 0, 50, 50)] :=
  ⟨by with_unfolding_all rfl, by with_unfolding_all decide,
    by with_unfolding_all rfl⟩

/-- C2 counterexample: constructing an `EnsembleVoter` with the unknown
method "bogus" succeeds — no configuration error is raised at session
start — and the error surfaces only when `vote` is called with enough
predictions. -/
theorem ensemble_unknown_method_cex :
    EnsembleVoter.init "bogus" 2 = Except.ok ⟨"bogus", 2⟩ ∧
    vote ⟨"bogus", 2⟩
      [⟨"M1", "happy", 1, [("happy", 1)]⟩, ⟨"M2", "happy", 1, [("happy", 1)]⟩]
      none
      = Except.error "Unknown voting method: bogus" :=
  ⟨rfl, by with_unfolding_all rfl⟩

/-- C2 amended: an unknown voting method is accepted by the constructor;
the `ValueError` is raised at runtime by the first `vote` call that
reaches method dispatch (at least `min_models_required` predictions),
and `vote` never silently substitutes a method or fabricates a
consensus — below the minimum it returns no consensus. -/
theorem vote_unknown_method_amended (method : String) (n : Nat)
    (preds : List EmotionPrediction) (weights : Option (List (String × ℚ)))
    (h1 : method ≠ "weighted_voting") (h2 : method ≠ "average")
    (h3 : method ≠ "max_confidence") :
    EnsembleVoter.init method n = Except.ok ⟨method, n⟩ ∧
    vote ⟨method, n⟩ preds weights =
      (if preds.length < n then Except.ok none
       else Except.error ("Unknown voting method: " ++ method)) := by
  refine ⟨rfl, ?_⟩
  simp only [vote, h1, h2, h3, if_false]

/-- Witness for C2's amended theorem at the method string "bogus". -/
theorem vote_unknown_method_amended_witness :
    EnsembleVoter.init "bogus" 2 = Except.ok ⟨"bogus", 2⟩ ∧
    vote ⟨"bogus", 2⟩ [] none =
      (if ([] : List EmotionPrediction).length < 2 then Except.ok none
       else Except.error ("Unknown voting method: " ++ "bogus")) :=
  vote_unknown_method_amended "bogus" 2 [] none
    (by decide) (by decide) (by decide)

/-- The pattern loop yields 0.7 exactly when some configured length-2
pattern matches the last two labels as a set, and 0 otherwise. -/
theorem patternLoop_spec (pattern : List String) :
    ∀ susp : List (List String),
      (patternLoop pattern susp = 7/10 ↔
        ∃ s ∈ susp, s.length = 2 ∧ 2 ≤ pattern.length ∧
          listSetEq (lastTwo pattern) s = true) ∧
      (patternLoop pattern susp = 7/10 ∨ patternLoop pattern susp = 0) := by
  intro susp
  induction susp with
  | nil =>
    constructor
    · simp only [patternLoop]
      constructor
      · intro h; exact absurd h (by norm_num)
      · rintro ⟨s, hs, -⟩; simp at hs
    · exact Or.inr rfl
  | cons s rest ih =>
    simp only [patternLoop]
    split
    · rename_i hcond
      constructor
      · exact ⟨fun _ => ⟨s, List.mem_cons_self s rest, hcond⟩, fun _ => rfl⟩
      · exact Or.inl rfl
    · rename_i hcond
      constructor
      · rw [ih.1]
        constructor
        · rintro ⟨t, ht, hp⟩; exact ⟨t, List.mem_cons_of_mem s ht, hp⟩
        · rintro ⟨t, ht, hp⟩
          rcases List.mem_cons.mp ht with ht | ht
          · exact absurd (ht ▸ hp) hcond
          · exact ⟨t, ht, hp⟩
      · exact ih.2

/-- C3 amended: the pattern signal is 0.7 exactly when the window has at
least two labels and the unordered set of the last two window labels —
the final two entries, repeats included, not the last two distinct
labels — equals the set of some configured length-2 suspicious pattern;
otherwise it is 0. -/
theorem check_emotion_patterns_last_two_entries (pattern : List String)
    (susp : List (List String)) :
    (check_emotion_patterns pattern susp = 7/10 ↔
      2 ≤ pattern.length ∧
      ∃ s ∈ susp, s.length = 2 ∧ listSetEq (lastTwo pattern) s = true) ∧
    (check_emotion_patterns pattern susp = 7/10 ∨
      check_emotion_patterns pattern susp = 0) := by
  unfold check_emotion_patterns
  by_cases hlen : pattern.length < 2
  · rw [if_pos hlen]
    constructor
    · constructor
      · intro h; exact absurd h (by norm_num)
      · rintro ⟨h2, -⟩; omega
    · exact Or.inr rfl
  · rw [if_neg hlen]
    have h2 : 2 ≤ pattern.length := by omega
    refine ⟨?_, (patternLoop_spec pattern susp).2⟩
    rw [(patternLoop_spec pattern susp).1]
    constructor
    · rintro ⟨s, hs, hl, -, hset⟩; exact ⟨h2, s, hs, hl, hset⟩
    · rintro ⟨-, s, hs, hl, hset⟩; exact ⟨s, hs, hl, h2, hset⟩

/-- C3 counterexample: for the window pattern `fear, contempt, contempt`
the last two distinct labels are `fear, contempt`, which match the
configured suspicious pair as a set, yet the code scores 0, not 0.7,
because it compares the literal last two entries `contempt, contempt`. -/
theorem pattern_signal_repeated_label_cex :
    specLastTwoDistinct ["fear", "contempt", "contempt"] = ["fear", "contempt"] ∧
    listSetEq (specLastTwoDistinct ["fear", "contempt", "contempt"])
      ["fear", "contempt"] = true ∧
    check_emotion_patterns ["fear", "contempt", "contempt"]
      [["fear", "contempt"]] = 0 := by
  with_unfolding_all decide

/-- C4 amended: the merged output is, in order, a sublist of the stable
descending-by-confidence sort of the pooled input — so rectangles appear
sorted by score with ties broken by backend submission order (first list
before second, stable within each), the larger area playing no role —
and the output is itself sorted descending by confidence.  Being a
function of its inputs, the merge is deterministic. -/
theorem merge_detections_sorted_stable (faces1 faces2 : List FaceRegion)
    (thr : ℚ) :
    List.Sublist (merge_detections faces1 faces2 thr)
      (sortConfDesc (faces1 ++ faces2)) ∧
    (merge_detections faces1 faces2 thr).Pairwise confDescLe := by
  have hs := mergeKeep_sublist thr (sortConfDesc (faces1 ++ faces2)) []
  exact ⟨hs, (sortConfDesc_sorted _).sublist hs⟩

/-- C4 counterexample: two pooled rectangles with equal score and no
overlap, the smaller-area one submitted by the first backend, come out
in submission order — the larger-area rectangle is not promoted, so
score ties are not broken by larger area. -/
theorem merge_tie_ignores_area_cex :
    merge_detections [⟨0, 0, 10, 10, 9/10⟩] [⟨100, 100, 20, 20, 9/10⟩] (1/2)
      = [⟨0, 0, 10, 10, 9/10⟩, ⟨100, 100, 20, 20, 9/10⟩] ∧
    (⟨0, 0, 10, 10, 9/10⟩ : FaceRegion).confidence
      = (⟨100, 100, 20, 20, 9/10⟩ : FaceRegion).confidence ∧
    (⟨0, 0, 10, 10, 9/10⟩ : FaceRegion).area
      < (⟨100, 100, 20, 20, 9/10⟩ : FaceRegion).area := by
  with_unfolding_all decide

/-- C6 amended: for both the weighted and the average strategy, the
consensus label is the first label of the accumulated score dictionary —
keys in insertion order, i.e. order of first encounter across the
predictions — attaining the maximal score: every earlier label scores
strictly less, every later label no more.  Vocabulary position plays no
role. -/
theorem voting_argmax_first_insertion :
    (∀ (preds : List EmotionPrediction) (weights : Option (List (String × ℚ)))
        (res : EmotionPrediction),
      weighted_voting preds weights = some res →
      ∃ l1 l2, res.all_scores = l1 ++ (res.emotion, res.confidence) :: l2 ∧
        (∀ y ∈ l1, y.2 < res.confidence) ∧
        (∀ y ∈ l2, y.2 ≤ res.confidence)) ∧
    (∀ (preds : List EmotionPrediction) (res : EmotionPrediction),
      average_voting preds = some res →
      ∃ l1 l2, res.all_scores = l1 ++ (res.emotion, res.confidence) :: l2 ∧
        (∀ y ∈ l1, y.2 < res.confidence) ∧
        (∀ y ∈ l2, y.2 ≤ res.confidence)) := by
  constructor
  · intro preds weights res h
    unfold weighted_voting at h
    cases hfm : firstMaxBy Prod.snd (weightedScores weights preds) with
    | none => rw [hfm] at h; simp at h
    | some d =>
      rw [hfm] at h
      simp only [Option.some.injEq] at h
      obtain ⟨l1, l2, hsplit, hlt, hle⟩ := firstMaxBy_split _ _ _ hfm
      subst h
      exact ⟨l1, l2, by rw [hsplit], hlt, hle⟩
  · intro preds res h
    unfold average_voting at h
    cases hfm : firstMaxBy Prod.snd (averageScores preds) with
    | none => rw [hfm] at h; simp at h
    | some d =>
      rw [hfm] at h
      simp only [Option.some.injEq] at h
      obtain ⟨l1, l2, hsplit, hlt, hle⟩ := firstMaxBy_split _ _ _ hfm
      subst h
      exact ⟨l1, l2, by rw [hsplit], hlt, hle⟩

/-- Witness for C6's amended theorem on a concrete weighted vote. -/
theorem voting_argmax_first_insertion_witness :
    ∃ l1 l2, ([("happy", (1:ℚ))] : List (String × ℚ))
        = l1 ++ ("happy", 1) :: l2 ∧
      (∀ y ∈ l1, y.2 < (1:ℚ)) ∧ (∀ y ∈ l2, y.2 ≤ (1:ℚ)) :=
  voting_argmax_first_insertion.1 [⟨"M1", "happy", 1, [("happy", 1)]⟩] none
    ⟨"Ensemble", "happy", 1, [("happy", 1)]⟩ (by with_unfolding_all rfl)

/-- The fixed emotion vocabulary shared by the DeepFace, FER and OpenCV
backends (`get_supported_emotions` / `emotion_labels`). -/
def emotionVocab : List String :=
  ["angry", "disgust", "fear", "happy", "sad", "surprise", "neutral"]

/-- C6 counterexample: two predictions scoring `sad` and `happy` equally
(insertion order `sad` first) make the weighted vote return `sad`, even
though `happy` has the lower index in the fixed emotion vocabulary — the
tie is broken by insertion order, not vocabulary position. -/
theorem weighted_voting_tie_not_vocab_cex :
    weighted_voting
      [⟨"M1", "sad", 1/2, [("sad", 1/2), ("happy", 1/2)]⟩,
        ⟨"M2", "happy", 1/2, [("sad", 1/2), ("happy", 1/2)]⟩] none
      = some ⟨"Ensemble", "sad", 1/2, [("sad", 1/2), ("happy", 1/2)]⟩ ∧
    List.indexOf "happy" emotionVocab < List.indexOf "sad" emotionVocab := by
  with_unfolding_all decide

/-- C7 amended: the displayed label is a mode of the track's label
history, and ties between equally frequent labels are broken in favor of
the label whose FIRST occurrence is EARLIEST (the `Counter`'s insertion
order), not the one most recently seen: the history splits at the
winner's first occurrence, and every label occurring before it is
strictly less frequent. -/
theorem smoothed_emotion_mode_earliest (l : List String) (x : String)
    (h : smoothed_emotion l = some x) :
    x ∈ l ∧ (∀ y ∈ l, l.count y ≤ l.count x) ∧
    ∃ l1 l2, l = l1 ++ x :: l2 ∧ x ∉ l1 ∧
      ∀ y ∈ l1, l.count y < l.count x := by
  unfold smoothed_emotion at h
  cases hfm : firstMaxBy Prod.snd (labelCounts l) with
  | none => rw [hfm] at h; simp at h
  | some p =>
    rw [hfm] at h
    simp only [Option.map_some', Option.some.injEq] at h
    obtain ⟨m1, m2, hsplit, hlt, hle⟩ := firstMaxBy_split _ _ _ hfm
    obtain ⟨d1, k, d2, hdl, hk, hm1, hm2⟩ :=
      map_split _ (dedupFirst l) m1 p m2 hsplit
    have hkx : x = k := by rw [← h, ← hk]
    subst hkx
    have hp2 : p.2 = l.count x := by rw [← hk]
    have hd1 : ∀ y ∈ d1, l.count y < l.count x := by
      intro y hy
      have : (y, l.count y) ∈ m1 := by
        rw [← hm1]; exact List.mem_map_of_mem _ hy
      have := hlt _ this
      rwa [hp2] at this
    have hd2 : ∀ y ∈ d2, l.count y ≤ l.count x := by
      intro y hy
      have : (y, l.count y) ∈ m2 := by
        rw [← hm2]; exact List.mem_map_of_mem _ hy
      have := hle _ this
      rwa [hp2] at this
    have hxl : x ∈ l := by
      have hxd : x ∈ dedupFirst l := by rw [hdl]; simp
      exact (mem_dedupFirstAux l [] x hxd).1
    refine ⟨hxl, ?_, ?_⟩
    · intro y hy
      have hyd : y ∈ dedupFirst l :=
        dedupFirstAux_complete l [] y hy (by simp)
      rw [hdl] at hyd
      rcases List.mem_append.mp hyd with hyd | hyd
      · exact (hd1 y hyd).le
      · rcases List.mem_cons.mp hyd with hyd | hyd
        · rw [hyd]
        · exact hd2 y hyd
    · obtain ⟨l1, l2, heq, hnx, hsub⟩ := dedupFirstAux_split l [] d1 x d2 hdl
      refine ⟨l1, l2, heq, hnx, ?_⟩
      intro y hy
      rcases hsub y hy with hs | hs
      · simp at hs
      · exact hd1 y hs

/-- Witness for C7's amended theorem on the history `["a", "b"]`. -/
theorem smoothed_emotion_mode_earliest_witness :
    "a" ∈ (["a", "b"] : List String) ∧
    (∀ y ∈ (["a", "b"] : List String),
      (["a", "b"] : List String).count y ≤ (["a", "b"] : List String).count "a") ∧
    ∃ l1 l2, (["a", "b"] : List String) = l1 ++ "a" :: l2 ∧ "a" ∉ l1 ∧
      ∀ y ∈ l1, (["a", "b"] : List String).count y
        < (["a", "b"] : List String).count "a" :=
  smoothed_emotion_mode_earliest ["a", "b"] "a" (by with_unfolding_all rfl)

/-- C7 counterexample: with history `["a", "b"]` both labels are tied at
one occurrence and the most recent occurrence of `"b"` is latest, yet
the displayed label is `"a"` — ties go to the earliest occurrence, not
the most recent. -/
theorem smoothed_emotion_tie_cex :
    smoothed_emotion ["a", "b"] = some "a" ∧
    (["a", "b"] : List String).count "a" = (["a", "b"] : List String).count "b" ∧
    (["a", "b"] : List String).getLast? = some "b" ∧
    "a" ≠ "b" := by
  with_unfolding_all decide

/-- C1 amended: `adapt_frame_rate` never exceeds `max_fps` (for a sane
configuration with `min_fps ≤ max_fps` and a current rate within bound),
but the final clamp to `int(0.9 * theoretical_fps)` can push the result
below `min_fps`: with a sustained 200 ms average frame time and CPU
above target, the new rate is exactly `min_fps - 1` (4 against the
default floor of 5), and repeated updates hold it there, never lower. -/
theorem adapt_frame_rate_bounds_amended (m : PerformanceMonitor) (cpu : ℚ)
    (hbound : m.min_fps ≤ m.max_fps) (hcur : m.current_fps ≤ m.max_fps) :
    adapt_frame_rate m cpu ≤ m.max_fps ∧
    (m.frame_times ≠ [] → avgTime m = 1/5 → m.min_fps = 5 →
      m.target_cpu_percent < cpu →
      adapt_frame_rate m cpu = m.min_fps - 1) := by
  constructor
  · unfold adapt_frame_rate
    split
    · exact hcur
    · apply le_trans (min_le_left _ _)
      split
      · exact max_le hbound (by omega)
      · split
        · exact min_le_left _ _
        · exact hcur
  · intro hne havg hmin hcpu
    have htheo : theoreticalFps m = 5 := by
      unfold theoreticalFps
      rw [havg, if_pos (by norm_num)]
      norm_num
    have ht : truncQ (theoreticalFps m * (9/10)) = 4 := by
      rw [htheo]
      norm_num [truncQ]
    unfold adapt_frame_rate
    rw [if_neg hne, ht, if_pos hcpu, hmin]
    have h4 : (4 : Int) ≤ max 5 (m.current_fps - 1) :=
      le_trans (by norm_num) (le_max_left _ _)
    rw [min_eq_right h4]
    norm_num

/-- Witness for C1's amended theorem at the default configuration with a
sustained 200 ms frame time and CPU at 80%. -/
theorem adapt_frame_rate_bounds_amended_witness :
    adapt_frame_rate ⟨5, 30, 70, 10, [1/5]⟩ 80
      ≤ (⟨5, 30, 70, 10, [1/5]⟩ : PerformanceMonitor).max_fps ∧
    adapt_frame_rate ⟨5, 30, 70, 10, [1/5]⟩ 80
      = (⟨5, 30, 70, 10, [1/5]⟩ : PerformanceMonitor).min_fps - 1 := by
  obtain ⟨h1, h2⟩ := adapt_frame_rate_bounds_amended ⟨5, 30, 70, 10, [1/5]⟩ 80
    (by decide) (by decide)
  exact ⟨h1, h2 (by with_unfolding_all decide) (by with_unfolding_all decide)
    rfl (by with_unfolding_all decide)⟩

/-- C1 counterexample: at the default bounds `[5, 30]` with a sustained
200 ms average frame time and CPU above target, one update sets the rate
to 4, strictly below `min_fps = 5`. -/
theorem adapt_frame_rate_below_min_cex :
    adapt_frame_rate ⟨5, 30, 70, 10, [1/5]⟩ 80 = 4 ∧
    ¬ ((⟨5, 30, 70, 10, [1/5]⟩ : PerformanceMonitor).min_fps
        ≤ adapt_frame_rate ⟨5, 30, 70, 10, [1/5]⟩ 80) := by
  with_unfolding_all decide

end FacialDetection
